import Mathlib

/-!
Verification of `rt-core/src/tuple.rs`: the fixed-dimension numeric tuple
primitive `Tuple<N>` over 64-bit floats.

Scalars (`f64`) are modelled by the type `FP` below: an exact rational for
every finite double, plus the special values `+inf`, `-inf` and `NaN`.
Every arithmetic operation on finite values rounds its exact rational
result with `roundF64`, the IEEE-754 binary64 rounding function
(round-to-nearest, ties to even, overflow to the signed infinity, gradual
underflow through the subnormal range), so finite arithmetic overflows and
rounds exactly as the compiled program does.  Operations involving the
special values follow the IEEE-754 special-value rules directly.  Not
modelled: the negative zero (collapsed onto 0, which only affects the sign
of a zero or of an infinity produced from it) and NaN payloads.  Decimal
literals of the source that are not exactly representable in binary64
(`0.00001`, `4.00001`) are embedded as the exact rational value of the
binary64 double nearest to them.
-/

/-- Model of an `f64` value: an exact rational for the finite doubles,
plus the IEEE-754 special values. -/
inductive FP where
  | finite (q : ℚ)
  | inf
  | neginf
  | nan
deriving DecidableEq

/-- The largest finite binary64 value, `(2 ^ 53 - 1) * 2 ^ 971`. -/
def MAXF : ℚ := (2 ^ 53 - 1) * 2 ^ 971

/-- Round a rational to the nearest integer, ties to the even integer
(the IEEE-754 default rounding attribute applied to a scaled
significand). -/
def rndTiesEven (x : ℚ) : ℤ :=
  if x - Int.floor x < 1/2 then Int.floor x
  else if 1/2 < x - Int.floor x then Int.floor x + 1
  else if Int.floor x % 2 = 0 then Int.floor x else Int.floor x + 1

/-- The binary64 exponent used to round a nonzero rational: the power of
two below `|q|`, clamped at the minimum normal exponent `-1022` (below
which binary64 becomes subnormal). -/
def f64exp (q : ℚ) : ℤ := max (Int.log 2 |q|) (-1022)

/-- The rounded integer significand of `q` at scale `2 ^ (f64exp q - 52)`. -/
def f64mant (q : ℚ) : ℤ := rndTiesEven (|q| * (2:ℚ) ^ ((52:ℤ) - f64exp q))

/-- The magnitude of the binary64 value nearest to `q`. -/
def f64val (q : ℚ) : ℚ := (f64mant q : ℚ) * (2:ℚ) ^ (f64exp q - 52)

/-- IEEE-754 binary64 rounding of an exact rational result: the nearest
representable double (ties to even), or the signed infinity when the
rounded magnitude exceeds the largest finite double. -/
def roundF64 (q : ℚ) : FP :=
  if q = 0 then FP.finite 0
  else if MAXF < f64val q then (if q < 0 then FP.neginf else FP.inf)
  else if q < 0 then FP.finite (-(f64val q)) else FP.finite (f64val q)

/-- IEEE-754 negation (`-x` on `f64`); exact, never rounds. -/
def FP.neg : FP → FP
  | .finite q => .finite (-q)
  | .inf => .neginf
  | .neginf => .inf
  | .nan => .nan

/-- IEEE-754 addition (`x + y` on `f64`): the exact sum of finite
operands is rounded to binary64. -/
def FP.add : FP → FP → FP
  | .nan, _ => .nan
  | _, .nan => .nan
  | .finite a, .finite b => roundF64 (a + b)
  | .finite _, .inf => .inf
  | .finite _, .neginf => .neginf
  | .inf, .finite _ => .inf
  | .inf, .inf => .inf
  | .inf, .neginf => .nan
  | .neginf, .finite _ => .neginf
  | .neginf, .inf => .nan
  | .neginf, .neginf => .neginf

/-- IEEE-754 subtraction (`x - y` on `f64`): the exact difference of
finite operands is rounded to binary64. -/
def FP.sub : FP → FP → FP
  | .nan, _ => .nan
  | _, .nan => .nan
  | .finite a, .finite b => roundF64 (a - b)
  | .finite _, .inf => .neginf
  | .finite _, .neginf => .inf
  | .inf, .finite _ => .inf
  | .inf, .inf => .nan
  | .inf, .neginf => .inf
  | .neginf, .finite _ => .neginf
  | .neginf, .inf => .neginf
  | .neginf, .neginf => .nan

/-- IEEE-754 multiplication (`x * y` on `f64`): the exact product of
finite operands is rounded to binary64. -/
def FP.mul : FP → FP → FP
  | .nan, _ => .nan
  | _, .nan => .nan
  | .finite a, .finite b => roundF64 (a * b)
  | .finite a, .inf => if 0 < a then .inf else if a < 0 then .neginf else .nan
  | .finite a, .neginf => if 0 < a then .neginf else if a < 0 then .inf else .nan
  | .inf, .finite b => if 0 < b then .inf else if b < 0 then .neginf else .nan
  | .neginf, .finite b => if 0 < b then .neginf else if b < 0 then .inf else .nan
  | .inf, .inf => .inf
  | .inf, .neginf => .neginf
  | .neginf, .inf => .neginf
  | .neginf, .neginf => .inf

/-- IEEE-754 division (`x / y` on `f64`): the exact quotient of finite
operands (nonzero divisor) is rounded to binary64.  Division of a nonzero
finite value by zero yields a signed infinity, `0 / 0` yields `NaN` (the
model has a single zero, so the sign of the zero divisor is always
positive). -/
def FP.div : FP → FP → FP
  | .nan, _ => .nan
  | _, .nan => .nan
  | .finite a, .finite b =>
      if b = 0 then (if 0 < a then .inf else if a < 0 then .neginf else .nan)
      else roundF64 (a / b)
  | .finite _, .inf => .finite 0
  | .finite _, .neginf => .finite 0
  | .inf, .finite b => if b < 0 then .neginf else .inf
  | .neginf, .finite b => if b < 0 then .inf else .neginf
  | .inf, .inf => .nan
  | .inf, .neginf => .nan
  | .neginf, .inf => .nan
  | .neginf, .neginf => .nan

/-- IEEE-754 absolute value (`x.abs()` on `f64`); exact, never rounds. -/
def FP.abs : FP → FP
  | .finite q => .finite |q|
  | .nan => .nan
  | _ => .inf

/-- IEEE-754 strict less-than (`x < y` on `f64`): any comparison with
`NaN` is false.  Comparison of doubles is exact, no rounding occurs. -/
def FP.lt : FP → FP → Bool
  | .nan, _ => false
  | _, .nan => false
  | .finite a, .finite b => decide (a < b)
  | .finite _, .inf => true
  | .finite _, .neginf => false
  | .inf, _ => false
  | .neginf, .neginf => false
  | .neginf, _ => true

/-- `true` exactly on the finite values. -/
def FP.isFinite : FP → Bool
  | .finite _ => true
  | _ => false

/-- The exact rational value of the binary64 double nearest to the source
literal `0.00001` (the epsilon of `PartialEq for Tuple<N>`):
`5902958103587057 * 2 ^ (-69)`. -/
def EPSILON : ℚ := 5902958103587057 / 590295810358705651712

/-- The epsilon constant as an `FP` scalar. -/
def epsFP : FP := FP.finite EPSILON

/-- `Tuple<N>`: a fixed-length array `data: [f64; N]`, modelled as a
function out of `Fin n`. -/
structure Tuple (n : ℕ) where
  data : Fin n → FP

/-- `impl From<[f64; N]> for Tuple<N>`: wraps the array verbatim. -/
def Tuple.fromArray {n : ℕ} (array : Fin n → FP) : Tuple n :=
  Tuple.mk array

/-- `Tuple::iter`: the `N` scalars in index order, as a list. -/
def Tuple.iter {n : ℕ} (t : Tuple n) : List FP :=
  (List.finRange n).map t.data

/-- The panic message of `Index::index` for length `n` and index `i`
(the `assert!` format string with its arguments substituted). -/
def indexErrMsg (n i : ℕ) : String :=
  "Index out of bounds: the len is " ++ toString n ++ " but the index is " ++ toString i

/-- `impl Index<usize> for Tuple<N>`: asserts `index < N` (panicking with
`indexErrMsg` otherwise, modelled as `Except.error`) and returns the
element. -/
def Tuple.index {n : ℕ} (t : Tuple n) (i : ℕ) : Except String FP :=
  if h : i < n then Except.ok (t.data ⟨i, h⟩) else Except.error (indexErrMsg n i)

/-- `implement_operations!(Add, add, +)`:
`Tuple::from(std::array::from_fn(|i| self.data[i] + other.data[i]))`. -/
def Tuple.add {n : ℕ} (a other : Tuple n) : Tuple n :=
  Tuple.fromArray (fun i => FP.add (a.data i) (other.data i))

/-- `implement_operations!(Sub, sub, -)`. -/
def Tuple.sub {n : ℕ} (a other : Tuple n) : Tuple n :=
  Tuple.fromArray (fun i => FP.sub (a.data i) (other.data i))

/-- `implement_operations!(Mul, mul, *)` (Hadamard product). -/
def Tuple.mul {n : ℕ} (a other : Tuple n) : Tuple n :=
  Tuple.fromArray (fun i => FP.mul (a.data i) (other.data i))

/-- `implement_operations!(Div, div, /)`. -/
def Tuple.div {n : ℕ} (a other : Tuple n) : Tuple n :=
  Tuple.fromArray (fun i => FP.div (a.data i) (other.data i))

/-- `implement_operations!(Mul, mul, *, f64)`. -/
def Tuple.mulScalar {n : ℕ} (a : Tuple n) (scalar : FP) : Tuple n :=
  Tuple.fromArray (fun i => FP.mul (a.data i) scalar)

/-- `implement_operations!(Div, div, /, f64)`. -/
def Tuple.divScalar {n : ℕ} (a : Tuple n) (scalar : FP) : Tuple n :=
  Tuple.fromArray (fun i => FP.div (a.data i) scalar)

/-- `impl Neg for &Tuple<N>`. -/
def Tuple.negate {n : ℕ} (a : Tuple n) : Tuple n :=
  Tuple.fromArray (fun i => FP.neg (a.data i))

/-- `impl PartialEq for Tuple<N>`:
`self.iter().zip(other.iter()).all(|(a, b)| (a - b).abs() < 0.00001)`. -/
def Tuple.eq {n : ℕ} (a other : Tuple n) : Bool :=
  (a.iter.zip other.iter).all (fun p => FP.lt (FP.abs (FP.sub p.1 p.2)) epsFP)

/-! ### Helper lemmas and concrete sample values -/

/-- A concrete 4-tuple builder (used for sample inputs). -/
def mkT4 (a b c d : FP) : Tuple 4 :=
  Tuple.fromArray (fun i => if i.val = 0 then a else if i.val = 1 then b else if i.val = 2 then c else d)

/-- A concrete 1-tuple builder (used for sample inputs). -/
def mkT1 (a : FP) : Tuple 1 := Tuple.fromArray (fun _ => a)

/-- The exact rational value of the binary64 double nearest to the source
literal `4.00001`: `1125902721592391 * 2 ^ (-48)`. -/
def q400001 : ℚ := 1125902721592391 / 281474976710656

/-- The sample tuple `Tuple::from([1.0, 2.0, 3.0, 4.0])`. -/
def t1234 : Tuple 4 := mkT4 (.finite 1) (.finite 2) (.finite 3) (.finite 4)

/-- The sample tuple `Tuple::from([2.0, 3.0, 4.0, 5.0])`. -/
def t2345 : Tuple 4 := mkT4 (.finite 2) (.finite 3) (.finite 4) (.finite 5)

/-- The sample tuple `Tuple::from([1.0, 2.0, 3.0, 4.00001])`. -/
def t400001 : Tuple 4 := mkT4 (.finite 1) (.finite 2) (.finite 3) (.finite q400001)

/-- The sample tuple `Tuple::from([f64::NAN])`. -/
def nanT : Tuple 1 := mkT1 .nan

/-- The sample tuple `Tuple::from([0.0])`. -/
def zeroT : Tuple 1 := mkT1 (.finite 0)

/-- The sample tuple `Tuple::from([1.0])`. -/
def oneT : Tuple 1 := mkT1 (.finite 1)

/-- The zip-all fold of `PartialEq::eq` is the componentwise comparison. -/
theorem Tuple.eq_eq_true_iff {n : ℕ} (a b : Tuple n) :
    Tuple.eq a b = true ↔
      ∀ i : Fin n, FP.lt (FP.abs (FP.sub (a.data i) (b.data i))) epsFP = true := by
  unfold Tuple.eq Tuple.iter
  rw [List.zip_map']
  simp only [List.all_eq_true, List.forall_mem_map, List.mem_finRange, true_implies]

/-- Rounding an exact zero yields the (positive) zero. -/
theorem roundF64_zero : roundF64 0 = FP.finite 0 := by
  rw [roundF64]
  norm_num

/-- Round-to-nearest-even is the identity on integers. -/
theorem rndTiesEven_intCast (m : ℤ) : rndTiesEven (m : ℚ) = m := by
  rw [rndTiesEven]
  norm_num

/-- Rounding is the identity on a representable nonzero rational: if
`2 ^ e ≤ |q| < 2 ^ (e + 1)` with `e` in the normal range, the significand
`|q| * 2 ^ (52 - e)` is an integer, and `|q|` does not exceed the largest
finite double, then `roundF64 q = q`. -/
theorem roundF64_eq_self_of_repr {q : ℚ} (e m : ℤ) (hq : q ≠ 0)
    (h1 : (2:ℚ) ^ e ≤ |q|) (h2 : |q| < (2:ℚ) ^ (e + 1)) (hgeq : (-1022 : ℤ) ≤ e)
    (hm : |q| * (2:ℚ) ^ ((52:ℤ) - e) = (m : ℚ))
    (hmax : |q| ≤ MAXF) :
    roundF64 q = FP.finite q := by
  have hq0 : (0:ℚ) < |q| := abs_pos.mpr hq
  have hb : 1 < 2 := one_lt_two
  have hcast : ((2:ℕ):ℚ) = (2:ℚ) := by norm_num
  have hlog : Int.log 2 |q| = e := by
    have hle : e ≤ Int.log 2 |q| := by
      rw [← Int.zpow_le_iff_le_log hb hq0, hcast]
      exact h1
    have hlt : Int.log 2 |q| < e + 1 := by
      rw [← Int.lt_zpow_iff_log_lt hb hq0, hcast]
      exact h2
    omega
  have hexp : f64exp q = e := by rw [f64exp, hlog, max_eq_left hgeq]
  have hmant : f64mant q = m := by
    rw [f64mant, hexp, hm, rndTiesEven_intCast]
  have hval : f64val q = |q| := by
    rw [f64val, hmant, hexp, ← hm, mul_assoc, ← zpow_add₀ (two_ne_zero (α := ℚ))]
    norm_num
  rw [roundF64, if_neg hq, hval, if_neg (not_lt.mpr hmax)]
  rcases lt_or_le q 0 with h | h
  · rw [if_pos h, abs_of_neg h, neg_neg]
  · rw [if_neg (not_lt.mpr h), abs_of_nonneg h]

/-- Rounding is the identity on integers of magnitude below `2 ^ 53`
(every such integer is a binary64 double). -/
theorem roundF64_intCast (n : ℤ) (hn : |n| < 2 ^ 53) :
    roundF64 (n : ℚ) = FP.finite (n : ℚ) := by
  rcases eq_or_ne n 0 with rfl | h0
  · simpa using roundF64_zero
  have hq : (n:ℚ) ≠ 0 := Int.cast_ne_zero.mpr h0
  have hq0 : (0:ℚ) < |(n:ℚ)| := abs_pos.mpr hq
  have hb : 1 < 2 := one_lt_two
  have hcast : ((2:ℕ):ℚ) = (2:ℚ) := by norm_num
  have h1 : (2:ℚ) ^ Int.log 2 |(n:ℚ)| ≤ |(n:ℚ)| := by
    have := Int.zpow_log_le_self (b := 2) hb hq0
    rwa [hcast] at this
  have h2 : |(n:ℚ)| < (2:ℚ) ^ (Int.log 2 |(n:ℚ)| + 1) := by
    have := Int.lt_zpow_succ_log_self (b := 2) hb |(n:ℚ)|
    rwa [hcast] at this
  have habs1 : (1:ℚ) ≤ |(n:ℚ)| := by
    rw [← Int.cast_abs]
    exact_mod_cast Int.one_le_abs h0
  have he0 : 0 ≤ Int.log 2 |(n:ℚ)| := by
    rw [← Int.zpow_le_iff_le_log hb hq0, hcast]
    simpa using habs1
  have habs53 : |(n:ℚ)| < (2:ℚ) ^ (53:ℤ) := by
    rw [← Int.cast_abs]
    calc ((|n|:ℤ):ℚ) < ((2 ^ 53 : ℤ):ℚ) := by exact_mod_cast hn
    _ = (2:ℚ) ^ (53:ℤ) := by norm_num
  have he53 : Int.log 2 |(n:ℚ)| ≤ 52 := by
    have hlt := lt_of_le_of_lt h1 habs53
    have := (zpow_lt_zpow_iff_right₀ (by norm_num : (1:ℚ) < 2)).mp hlt
    omega
  obtain ⟨t, ht⟩ : ∃ t : ℕ, (52:ℤ) - Int.log 2 |(n:ℚ)| = t :=
    ⟨((52:ℤ) - Int.log 2 |(n:ℚ)|).toNat, (Int.toNat_of_nonneg (by omega)).symm⟩
  refine roundF64_eq_self_of_repr (Int.log 2 |(n:ℚ)|) (|n| * 2 ^ t) hq h1 h2 (by omega) ?_ ?_
  · rw [ht, zpow_natCast, ← Int.cast_abs]
    push_cast
    ring
  · calc |(n:ℚ)| ≤ (2:ℚ) ^ (53:ℤ) := le_of_lt habs53
    _ ≤ MAXF := by rw [MAXF]; norm_num

/-- Rounding is the identity on a rational that equals a small integer. -/
theorem roundF64_eq_self_int (x : ℚ) (n : ℤ) (hx : x = (n:ℚ)) (hn : |n| < 2 ^ 53) :
    roundF64 x = FP.finite x := by
  rw [hx, roundF64_intCast n hn]

/-- A rounded small-integer result is finite. -/
theorem FP.isFinite_roundF64_int (x : ℚ) (n : ℤ) (hx : x = (n:ℚ)) (hn : |n| < 2 ^ 53) :
    (roundF64 x).isFinite = true := by
  rw [roundF64_eq_self_int x n hx hn]
  rfl

/-- A finite scalar is within epsilon of itself: the difference rounds to
an exact zero. -/
theorem FP.lt_abs_sub_self (p : ℚ) :
    FP.lt (FP.abs (FP.sub (FP.finite p) (FP.finite p))) epsFP = true := by
  show FP.lt (FP.abs (roundF64 (p - p))) epsFP = true
  rw [sub_self, roundF64_zero]
  simp only [FP.abs, FP.lt, epsFP, abs_zero, decide_eq_true_eq]
  rw [EPSILON]
  norm_num

/-- When the rounded difference is a finite value strictly inside the
epsilon interval, the comparison of the source `eq` accepts it. -/
theorem FP.lt_abs_eps_of_round {p q d : ℚ} (h : roundF64 (p - q) = FP.finite d)
    (h1 : d < EPSILON) (h2 : -EPSILON < d) :
    FP.lt (FP.abs (FP.sub (FP.finite p) (FP.finite q))) epsFP = true := by
  show FP.lt (FP.abs (roundF64 (p - q))) epsFP = true
  rw [h]
  simp only [FP.abs, FP.lt, epsFP, decide_eq_true_eq]
  rw [abs_lt]
  exact ⟨h2, h1⟩

/-- Subtracting anything from `NaN` yields `NaN`. -/
theorem FP.sub_nan_left (y : FP) : FP.sub FP.nan y = FP.nan := by
  cases y <;> rfl

/-- `NaN` is `<` nothing. -/
theorem FP.lt_nan_left (y : FP) : FP.lt FP.nan y = false := by
  cases y <;> rfl

/-- Finiteness as an existential. -/
theorem FP.isFinite_eq_true_iff (x : FP) : x.isFinite = true ↔ ∃ q, x = FP.finite q := by
  cases x <;> simp [FP.isFinite]

/-- Dividing any scalar by the (positive) zero yields an infinity or `NaN`,
never a finite value. -/
theorem FP.div_finite_zero_nonfinite (x : FP) :
    FP.div x (FP.finite 0) = FP.inf ∨ FP.div x (FP.finite 0) = FP.neginf ∨
      FP.div x (FP.finite 0) = FP.nan := by
  cases x with
  | finite q =>
    rcases lt_trichotomy q 0 with h | h | h
    · right; left
      simp [FP.div, h, not_lt.mpr h.le]
    · right; right
      simp [FP.div, h]
    · left
      simp [FP.div, h]
  | inf =>
    left
    simp [FP.div]
  | neginf =>
    right; left
    simp [FP.div]
  | nan =>
    right; right
    rfl

/-- Addition of finite scalars rounds the exact sum. -/
theorem FP.add_finite (p q : ℚ) : FP.add (FP.finite p) (FP.finite q) = roundF64 (p + q) := rfl

/-- Subtraction of finite scalars rounds the exact difference. -/
theorem FP.sub_finite (p q : ℚ) : FP.sub (FP.finite p) (FP.finite q) = roundF64 (p - q) := rfl

/-- Multiplication of finite scalars rounds the exact product. -/
theorem FP.mul_finite (p q : ℚ) : FP.mul (FP.finite p) (FP.finite q) = roundF64 (p * q) := rfl

/-- `neg` on a finite scalar is exact rational negation. -/
theorem FP.neg_finite (p : ℚ) : FP.neg (FP.finite p) = FP.finite (-p) := rfl

/-- Division by a nonzero finite scalar rounds the exact quotient. -/
theorem FP.div_finite (p q : ℚ) (hq : q ≠ 0) :
    FP.div (FP.finite p) (FP.finite q) = roundF64 (p / q) := by
  simp [FP.div, hq]

/-- A finite sum forces both addends finite (every special-value operand
produces a special-value result). -/
theorem FP.add_isFinite_inv {x y : FP} (h : (FP.add x y).isFinite = true) :
    x.isFinite = true ∧ y.isFinite = true := by
  cases x <;> cases y <;> simp_all [FP.add, FP.isFinite]

/-- A finite difference forces both operands finite. -/
theorem FP.sub_isFinite_inv {x y : FP} (h : (FP.sub x y).isFinite = true) :
    x.isFinite = true ∧ y.isFinite = true := by
  cases x <;> cases y <;> simp_all [FP.sub, FP.isFinite]

/-- The binary64 difference `4.0 - 4.00001` is exactly representable:
rounding it is the identity (`|4 - 4.00001| = 2814749767 * 2 ^ (-48)`,
whose significand at exponent `-17` is the integer
`2814749767 * 2 ^ 21 = 5902958103363584`). -/
theorem roundF64_c9_neg : roundF64 ((4:ℚ) - q400001) = FP.finite ((4:ℚ) - q400001) := by
  have habs : |(4:ℚ) - q400001| = 2814749767 / 281474976710656 := by
    rw [q400001, abs_of_nonpos (by norm_num)]
    norm_num
  refine roundF64_eq_self_of_repr (-17) 5902958103363584
    (by rw [q400001]; norm_num) ?_ ?_ (by norm_num) ?_ ?_
  · rw [habs]; norm_num
  · rw [habs]; norm_num
  · rw [habs]; norm_num
  · rw [habs, MAXF]; norm_num

/-- The binary64 difference `4.00001 - 4.0` is exactly representable:
rounding it is the identity. -/
theorem roundF64_c9_pos : roundF64 (q400001 - 4) = FP.finite (q400001 - 4) := by
  have habs : |q400001 - (4:ℚ)| = 2814749767 / 281474976710656 := by
    rw [q400001, abs_of_nonneg (by norm_num)]
    norm_num
  refine roundF64_eq_self_of_repr (-17) 5902958103363584
    (by rw [q400001]; norm_num) ?_ ?_ (by norm_num) ?_ ?_
  · rw [habs]; norm_num
  · rw [habs]; norm_num
  · rw [habs]; norm_num
  · rw [habs, MAXF]; norm_num

/-! ### The claims -/

/-- Claim C1: for every `N` and tuples `a b : Tuple<N>`, `PartialEq::eq`
returns `true` iff for every index `i` the computed absolute difference of
the `i`-th components is strictly below the fixed constant `0.00001`. -/
theorem tuple_eq_iff_componentwise_lt_epsilon {n : ℕ} (a b : Tuple n) :
    Tuple.eq a b = true ↔
      ∀ i : Fin n, FP.lt (FP.abs (FP.sub (a.data i) (b.data i))) epsFP = true :=
  Tuple.eq_eq_true_iff a b

/-- Claim C2: indexing with `i >= N` hits the failing assertion: it never
returns a value, and the panic message states both the valid length `N`
and the offending index `i`. -/
theorem tuple_index_out_of_bounds_fails {n : ℕ} (t : Tuple n) (i : ℕ) (h : n ≤ i) :
    t.index i = Except.error (indexErrMsg n i) ∧
      (∀ v, t.index i ≠ Except.ok v) ∧
      ∃ s₁ s₂ : String, indexErrMsg n i = s₁ ++ toString n ++ s₂ ++ toString i := by
  have hn : ¬ i < n := not_lt.mpr h
  refine ⟨?_, ?_, "Index out of bounds: the len is ", " but the index is ", rfl⟩
  · unfold Tuple.index
    rw [dif_neg hn]
  · intro v hv
    unfold Tuple.index at hv
    rw [dif_neg hn] at hv
    exact Except.noConfusion hv

/-- Witness for C2: a 4-tuple indexed at 7. -/
theorem tuple_index_out_of_bounds_fails_witness :
    t1234.index 7 = Except.error (indexErrMsg 4 7) ∧
      (∀ v, t1234.index 7 ≠ Except.ok v) ∧
      ∃ s₁ s₂ : String, indexErrMsg 4 7 = s₁ ++ toString 4 ++ s₂ ++ toString 7 :=
  tuple_index_out_of_bounds_fails t1234 7 (by norm_num)

/-- Claim C3: construction wraps the array verbatim, and indexing a
constructed tuple at any valid index returns exactly the array element. -/
theorem tuple_from_preserves_components {n : ℕ} (array : Fin n → FP) (i : ℕ) (h : i < n) :
    (Tuple.fromArray array).data = array ∧
      (Tuple.fromArray array).index i = Except.ok (array ⟨i, h⟩) := by
  refine ⟨rfl, ?_⟩
  unfold Tuple.index
  rw [dif_pos h]
  rfl

/-- Witness for C3: the sample array of `t1234`, index 2. -/
theorem tuple_from_preserves_components_witness :
    (Tuple.fromArray t1234.data).data = t1234.data ∧
      (Tuple.fromArray t1234.data).index 2 = Except.ok (t1234.data ⟨2, by norm_num⟩) :=
  tuple_from_preserves_components t1234.data 2 (by norm_num)

/-- Claim C4: elementwise and scalar division are total — every component
of the result is the IEEE-754 division of the operand components, with no
error branch — and a zero divisor component (or zero scalar) yields an
infinity or `NaN`, never a failure. -/
theorem tuple_div_total_and_ieee_on_zero {n : ℕ} (a b : Tuple n) (i : Fin n)
    (hb : b.data i = FP.finite 0) :
    (∀ (m : ℕ) (c d : Tuple m) (j : Fin m),
        (Tuple.div c d).data j = FP.div (c.data j) (d.data j)) ∧
      (∀ (m : ℕ) (c : Tuple m) (k : FP) (j : Fin m),
        (Tuple.divScalar c k).data j = FP.div (c.data j) k) ∧
      ((Tuple.div a b).data i = FP.inf ∨ (Tuple.div a b).data i = FP.neginf ∨
        (Tuple.div a b).data i = FP.nan) ∧
      ((Tuple.divScalar a (FP.finite 0)).data i = FP.inf ∨
        (Tuple.divScalar a (FP.finite 0)).data i = FP.neginf ∨
        (Tuple.divScalar a (FP.finite 0)).data i = FP.nan) := by
  refine ⟨fun m c d j => rfl, fun m c k j => rfl, ?_, ?_⟩
  · have hdi : (Tuple.div a b).data i = FP.div (a.data i) (FP.finite 0) := by
      show FP.div (a.data i) (b.data i) = _
      rw [hb]
    rw [hdi]
    exact FP.div_finite_zero_nonfinite (a.data i)
  · exact FP.div_finite_zero_nonfinite (a.data i)

/-- Witness for C4: `[1.0] / [0.0]` and `[1.0] / 0.0`. -/
theorem tuple_div_total_and_ieee_on_zero_witness :
    (∀ (m : ℕ) (c d : Tuple m) (j : Fin m),
        (Tuple.div c d).data j = FP.div (c.data j) (d.data j)) ∧
      (∀ (m : ℕ) (c : Tuple m) (k : FP) (j : Fin m),
        (Tuple.divScalar c k).data j = FP.div (c.data j) k) ∧
      ((Tuple.div oneT zeroT).data ⟨0, by norm_num⟩ = FP.inf ∨
        (Tuple.div oneT zeroT).data ⟨0, by norm_num⟩ = FP.neginf ∨
        (Tuple.div oneT zeroT).data ⟨0, by norm_num⟩ = FP.nan) ∧
      ((Tuple.divScalar oneT (FP.finite 0)).data ⟨0, by norm_num⟩ = FP.inf ∨
        (Tuple.divScalar oneT (FP.finite 0)).data ⟨0, by norm_num⟩ = FP.neginf ∨
        (Tuple.divScalar oneT (FP.finite 0)).data ⟨0, by norm_num⟩ = FP.nan) :=
  tuple_div_total_and_ieee_on_zero oneT zeroT ⟨0, by norm_num⟩ rfl

/-- Counterexample to claim C5 as stated (no restriction on component
values): the concrete one-tuple `[NaN]` is not equal to itself, because
`|NaN - NaN| < 0.00001` is false. -/
theorem tuple_eq_refl_nan_cex : Tuple.eq nanT nanT = false := by decide

/-- Claim C5 (amended): `eq(a, a)` is true for every tuple `a` whose
components are all finite. -/
theorem tuple_eq_refl_of_finite {n : ℕ} (a : Tuple n)
    (h : ∀ i, (a.data i).isFinite = true) :
    Tuple.eq a a = true := by
  rw [Tuple.eq_eq_true_iff]
  intro i
  obtain ⟨q, hq⟩ := (FP.isFinite_eq_true_iff (a.data i)).mp (h i)
  rw [hq]
  exact FP.lt_abs_sub_self q

/-- Witness for amended C5: the all-finite sample tuple `[1,2,3,4]`. -/
theorem tuple_eq_refl_of_finite_witness : Tuple.eq t1234 t1234 = true :=
  tuple_eq_refl_of_finite t1234 (by decide)

/-- Counterexample to claim C6 as stated (all same-dimension `a`, `b`):
with `a = [NaN]` and `b = [0.0]`, both sums are `[NaN]` and the
tolerance-based equality rejects them. -/
theorem tuple_add_comm_nan_cex :
    Tuple.eq (Tuple.add nanT zeroT) (Tuple.add zeroT nanT) = false := by decide

/-- Claim C6 (amended): addition is commutative up to the tolerance-based
equality for all same-dimension tuples for which every component of the
sum `add(a, b)` is finite (no `NaN` and no overflow to infinity): binary64
rounds the same exact sum in either order, so the two results are equal
finite values. -/
theorem tuple_add_comm_of_finite_sum {n : ℕ} (a b : Tuple n)
    (h : ∀ i, ((Tuple.add a b).data i).isFinite = true) :
    Tuple.eq (Tuple.add a b) (Tuple.add b a) = true := by
  rw [Tuple.eq_eq_true_iff]
  intro i
  have hi := h i
  have hab : (Tuple.add a b).data i = FP.add (a.data i) (b.data i) := rfl
  rw [hab] at hi
  obtain ⟨hfa, hfb⟩ := FP.add_isFinite_inv hi
  obtain ⟨p, hp⟩ := (FP.isFinite_eq_true_iff _).mp hfa
  obtain ⟨q, hq⟩ := (FP.isFinite_eq_true_iff _).mp hfb
  have h1 : (Tuple.add a b).data i = roundF64 (p + q) := by
    rw [hab, hp, hq, FP.add_finite]
  have h2 : (Tuple.add b a).data i = roundF64 (p + q) := by
    show FP.add (b.data i) (a.data i) = _
    rw [hp, hq, FP.add_finite, add_comm]
  have hfin : (roundF64 (p + q)).isFinite = true := by
    rw [← h1]
    exact h i
  obtain ⟨r, hr⟩ := (FP.isFinite_eq_true_iff _).mp hfin
  rw [h1, h2, hr]
  exact FP.lt_abs_sub_self r

/-- Witness for amended C6: `[1,2,3,4] + [2,3,4,5]`, whose sums are the
small integers 3, 5, 7, 9. -/
theorem tuple_add_comm_of_finite_sum_witness :
    Tuple.eq (Tuple.add t1234 t2345) (Tuple.add t2345 t1234) = true :=
  tuple_add_comm_of_finite_sum t1234 t2345 (by
    intro i
    fin_cases i
    · exact FP.isFinite_roundF64_int ((1:ℚ) + 2) 3 (by norm_num) (by norm_num)
    · exact FP.isFinite_roundF64_int ((2:ℚ) + 3) 5 (by norm_num) (by norm_num)
    · exact FP.isFinite_roundF64_int ((3:ℚ) + 4) 7 (by norm_num) (by norm_num)
    · exact FP.isFinite_roundF64_int ((4:ℚ) + 5) 9 (by norm_num) (by norm_num))

/-- Counterexample to claim C7 as stated (every tuple `a`, every nonzero
`k`): with `a = [NaN]` and the nonzero scalar `k = 2.0`, the round-trip
result `[NaN]` is not equal to `a`. -/
theorem tuple_mul_div_scalar_roundtrip_nan_cex :
    Tuple.eq (Tuple.divScalar (Tuple.mulScalar nanT (FP.finite 2)) (FP.finite 2)) nanT
      = false := by decide

/-- Claim C7 (amended): for every tuple `a` whose components are finite
binary64 values (each rounds to itself) and every finite nonzero scalar
`k` such that every product `a[i] * k` is exactly representable in
binary64 (the multiplication incurs no rounding, hence also no overflow),
multiplying by `k` and then dividing by `k` returns a tuple equal to `a`
within tolerance: the quotient `a[i] * k / k` rounds back to exactly
`a[i]`. -/
theorem tuple_mul_div_scalar_roundtrip_of_exact {n : ℕ} (a : Tuple n) (k : ℚ) (hk : k ≠ 0)
    (ha : ∀ i, ∃ p, a.data i = FP.finite p ∧ roundF64 p = FP.finite p ∧
        roundF64 (p * k) = FP.finite (p * k)) :
    Tuple.eq (Tuple.divScalar (Tuple.mulScalar a (FP.finite k)) (FP.finite k)) a = true := by
  rw [Tuple.eq_eq_true_iff]
  intro i
  obtain ⟨p, hp, hrp, hpk⟩ := ha i
  have h1 : (Tuple.divScalar (Tuple.mulScalar a (FP.finite k)) (FP.finite k)).data i
      = FP.finite p := by
    show FP.div (FP.mul (a.data i) (FP.finite k)) (FP.finite k) = _
    rw [hp, FP.mul_finite, hpk, FP.div_finite _ _ hk, mul_div_cancel_right₀ _ hk, hrp]
  rw [h1, hp]
  exact FP.lt_abs_sub_self p

/-- Witness for amended C7: `[1,2,3,4]` with `k = 2`; every component and
every product is a small integer, hence exactly representable. -/
theorem tuple_mul_div_scalar_roundtrip_of_exact_witness :
    Tuple.eq (Tuple.divScalar (Tuple.mulScalar t1234 (FP.finite 2)) (FP.finite 2)) t1234
      = true :=
  tuple_mul_div_scalar_roundtrip_of_exact t1234 2 (by norm_num) (by
    intro i
    fin_cases i
    · exact ⟨1, rfl, roundF64_eq_self_int _ 1 (by norm_num) (by norm_num),
        roundF64_eq_self_int _ 2 (by norm_num) (by norm_num)⟩
    · exact ⟨2, rfl, roundF64_eq_self_int _ 2 (by norm_num) (by norm_num),
        roundF64_eq_self_int _ 4 (by norm_num) (by norm_num)⟩
    · exact ⟨3, rfl, roundF64_eq_self_int _ 3 (by norm_num) (by norm_num),
        roundF64_eq_self_int _ 6 (by norm_num) (by norm_num)⟩
    · exact ⟨4, rfl, roundF64_eq_self_int _ 4 (by norm_num) (by norm_num),
        roundF64_eq_self_int _ 8 (by norm_num) (by norm_num)⟩)

/-- Counterexample to claim C8 as stated (all same-dimension `a`, `b`):
with `a = [NaN]` and `b = [0.0]`, both `sub(a, b)` and
`add(a, negate(b))` are `[NaN]`, which the tolerance-based equality
rejects. -/
theorem tuple_sub_eq_add_negate_nan_cex :
    Tuple.eq (Tuple.sub nanT zeroT) (Tuple.add nanT (Tuple.negate zeroT)) = false := by
  decide

/-- Claim C8 (amended): `sub(a, b)` equals `add(a, negate(b))` within
tolerance for all same-dimension tuples for which every component of the
difference `sub(a, b)` is finite (no `NaN` and no overflow to infinity):
negation is exact, so both sides round the same exact difference and are
equal finite values. -/
theorem tuple_sub_eq_add_negate_of_finite_diff {n : ℕ} (a b : Tuple n)
    (h : ∀ i, ((Tuple.sub a b).data i).isFinite = true) :
    Tuple.eq (Tuple.sub a b) (Tuple.add a (Tuple.negate b)) = true := by
  rw [Tuple.eq_eq_true_iff]
  intro i
  have hi := h i
  have hab : (Tuple.sub a b).data i = FP.sub (a.data i) (b.data i) := rfl
  rw [hab] at hi
  obtain ⟨hfa, hfb⟩ := FP.sub_isFinite_inv hi
  obtain ⟨p, hp⟩ := (FP.isFinite_eq_true_iff _).mp hfa
  obtain ⟨q, hq⟩ := (FP.isFinite_eq_true_iff _).mp hfb
  have h1 : (Tuple.sub a b).data i = roundF64 (p - q) := by
    rw [hab, hp, hq, FP.sub_finite]
  have h2 : (Tuple.add a (Tuple.negate b)).data i = roundF64 (p - q) := by
    show FP.add (a.data i) (FP.neg (b.data i)) = _
    rw [hp, hq, FP.neg_finite, FP.add_finite, ← sub_eq_add_neg]
  have hfin : (roundF64 (p - q)).isFinite = true := by
    rw [← h1]
    exact h i
  obtain ⟨r, hr⟩ := (FP.isFinite_eq_true_iff _).mp hfin
  rw [h1, h2, hr]
  exact FP.lt_abs_sub_self r

/-- Witness for amended C8: `[1,2,3,4] - [2,3,4,5]`, whose differences
are the small integer -1. -/
theorem tuple_sub_eq_add_negate_of_finite_diff_witness :
    Tuple.eq (Tuple.sub t1234 t2345) (Tuple.add t1234 (Tuple.negate t2345)) = true :=
  tuple_sub_eq_add_negate_of_finite_diff t1234 t2345 (by
    intro i
    fin_cases i
    · exact FP.isFinite_roundF64_int ((1:ℚ) - 2) (-1) (by norm_num) (by norm_num)
    · exact FP.isFinite_roundF64_int ((2:ℚ) - 3) (-1) (by norm_num) (by norm_num)
    · exact FP.isFinite_roundF64_int ((3:ℚ) - 4) (-1) (by norm_num) (by norm_num)
    · exact FP.isFinite_roundF64_int ((4:ℚ) - 5) (-1) (by norm_num) (by norm_num))

/-- Claim C9: on the concrete inputs `[1,2,3,4.0]` and `[1,2,3,4.00001]`
(with the literals read as binary64 doubles), `eq` returns true, and the
absolute difference of the last components is strictly below the epsilon
constant. -/
theorem tuple_eq_within_epsilon_scenario :
    Tuple.eq t1234 t400001 = true ∧
      FP.lt (FP.abs (FP.sub (FP.finite q400001) (FP.finite 4))) epsFP = true := by
  constructor
  · rw [Tuple.eq_eq_true_iff]
    intro i
    fin_cases i
    · exact FP.lt_abs_sub_self 1
    · exact FP.lt_abs_sub_self 2
    · exact FP.lt_abs_sub_self 3
    · exact FP.lt_abs_eps_of_round roundF64_c9_neg (by rw [q400001, EPSILON]; norm_num)
        (by rw [q400001, EPSILON]; norm_num)
  · exact FP.lt_abs_eps_of_round roundF64_c9_pos (by rw [q400001, EPSILON]; norm_num)
      (by rw [q400001, EPSILON]; norm_num)

/-- Claim C10: a tuple with a `NaN` component at some index compares
unequal to every same-dimension tuple, itself included. -/
theorem tuple_eq_false_of_nan_component {n : ℕ} (a b : Tuple n) (i : Fin n)
    (h : a.data i = FP.nan) :
    Tuple.eq a b = false := by
  rw [Bool.eq_false_iff]
  intro hT
  rw [Tuple.eq_eq_true_iff] at hT
  have hi := hT i
  rw [h, FP.sub_nan_left] at hi
  rw [show FP.abs FP.nan = FP.nan from rfl, FP.lt_nan_left] at hi
  exact Bool.false_ne_true hi

/-- Witness for C10: `[NaN]` compared with `[0.0]`. -/
theorem tuple_eq_false_of_nan_component_witness : Tuple.eq nanT zeroT = false :=
  tuple_eq_false_of_nan_component nanT zeroT ⟨0, by norm_num⟩ rfl
